import Mathlib

set_option maxRecDepth 100000

/-!
Shallow embedding of the IPv4 subnetting calculator (`src/script.js`).

Addresses and masks are byte quadruples, modelled as `List Nat` with each
entry in `[0, 255]`.  JavaScript's 32-bit signed bitwise operators
(`<<`, `|`, `~`, `&`) are modelled explicitly where their wrap-around
matters (`int32`, `stepHN`, the `&&& 255` truncations); everywhere else the
arithmetic is exact, matching JavaScript number semantics on the ranges
involved (all values stay far below 2^53).
-/

namespace IpCalc

/-- The 8 bits of a byte, most significant first: models the inner
`for (let i = 7; i >= 0; i--) ... (byte >> i) & 1` loops of `script.js`. -/
def bitsOfByte (b : Nat) : List Nat :=
  (List.range 8).map (fun i => (b >>> (7 - i)) &&& 1)

/-- The 32-bit sequence of a byte quadruple, MSB first (octet by octet). -/
def bits32 (m : List Nat) : List Nat :=
  (m.map bitsOfByte).flatten

/-- One output octet of `cidrToMask` when fewer than 8 prefix bits remain:
models `for (let j = 7; j >= 8 - cidr; j--) byte += (1 << j)`. -/
def cidrByteOf (cidr : Nat) : Nat :=
  (List.range 8).foldl (fun b j => if 8 - cidr ≤ j then b + (1 <<< j) else b) 0

/-- The 4-iteration loop of `cidrToMask` in `script.js`. -/
def cidrToMaskAux : Nat → Nat → List Nat
  | 0, _ => []
  | i + 1, cidr =>
    if 8 ≤ cidr then 255 :: cidrToMaskAux i (cidr - 8)
    else cidrByteOf cidr :: cidrToMaskAux i 0

/-- `cidrToMask` from `script.js` (lines 129-143), producing the byte
quadruple instead of the dotted string. -/
def cidrToMask (cidr : Nat) : List Nat :=
  cidrToMaskAux 4 cidr

/-- The bit-level scan of `maskToCidr` (`script.js` lines 150-164): state is
the count of 1-bits and the `zeroFound` flag; a 1-bit after a 0-bit aborts
with `none` (the source's `return null`). -/
def maskToCidrBits : List Nat → Nat → Bool → Option Nat
  | [], cidr, _ => some cidr
  | bit :: rest, cidr, zeroFound =>
    if bit = 1 then
      if zeroFound then none else maskToCidrBits rest (cidr + 1) zeroFound
    else maskToCidrBits rest cidr true

/-- `maskToCidr` from `script.js`, over the byte quadruple of the mask. -/
def maskToCidr (m : List Nat) : Option Nat :=
  maskToCidrBits (bits32 m) 0 false

/-- The contiguity check of `isValidMask` on the 32-bit sequence: models
`const firstZero = bin.indexOf('0'); return firstZero === -1 ||
!bin.slice(firstZero).includes('1')`. -/
def isValidMaskBits (bin : List Nat) : Bool :=
  match bin.findIdx? (fun bit => bit == 0) with
  | none => true
  | some i => !((bin.drop i).contains 1)

/-- `isValidMask` from `script.js` (lines 81-94) over a byte quadruple (the
regex shape check is string-level; the per-octet `oct > 255` early return is
kept). -/
def isValidMask (m : List Nat) : Bool :=
  if m.any (fun oct => 255 < oct) then false
  else isValidMaskBits (bits32 m)

/-- `calculateNetworkAddress`: per-octet `b & maskBytes[i]`. -/
def calculateNetworkAddress (ipBytes maskBytes : List Nat) : List Nat :=
  List.zipWith (fun a b => a &&& b) ipBytes maskBytes

/-- One octet of the wildcard mask: JavaScript's `(~b) & 0xFF`.  For
`0 ≤ b < 2^31`, `~b` has the 32-bit pattern `2^32 - 1 - b`. -/
def jsNotAnd255 (b : Nat) : Nat :=
  (4294967295 - b) &&& 255

/-- The wildcard mask `maskBytes.map(b => (~b) & 0xFF)` from
`performNetworkCalculations`. -/
def wildcardBytes (maskBytes : List Nat) : List Nat :=
  maskBytes.map jsNotAnd255

/-- `calculateBroadcastAddress`: per-octet `b | ((~maskBytes[i]) & 0xFF)`. -/
def calculateBroadcastAddress (networkBytes maskBytes : List Nat) : List Nat :=
  List.zipWith (fun a b => a ||| jsNotAnd255 b) networkBytes maskBytes

/-- The increment loop of `calculateFirstUsableAddress`, on the REVERSED
byte list (the source walks `i = 3 .. 0`, stopping at the first octet
below 255 and zeroing the 255s it passed). -/
def incFrom : List Nat → List Nat
  | [] => []
  | b :: rest => if b < 255 then (b + 1) :: rest else 0 :: incFrom rest

/-- The decrement loop of `calculateLastUsableAddress`, on the REVERSED
byte list. -/
def decFrom : List Nat → List Nat
  | [] => []
  | b :: rest => if 0 < b then (b - 1) :: rest else 255 :: decFrom rest

/-- `calculateFirstUsableAddress` (lines 240-248); the `'N/A'` sentinel is
`none`. -/
def calculateFirstUsableAddress (networkBytes : List Nat) (cidr : Nat) :
    Option (List Nat) :=
  if 31 ≤ cidr then none else some (incFrom networkBytes.reverse).reverse

/-- `calculateLastUsableAddress` (lines 256-264); the `'N/A'` sentinel is
`none`. -/
def calculateLastUsableAddress (broadcastBytes : List Nat) (cidr : Nat) :
    Option (List Nat) :=
  if 31 ≤ cidr then none else some (decFrom broadcastBytes.reverse).reverse

/-- `calculateAvailableHosts` (lines 272-276).  `Math.pow(2, 32 - cidr) - 2`
is exact in JavaScript doubles for `cidr ≤ 30` (values at most `2^32 - 2`),
so `Nat` arithmetic is a faithful model. -/
def calculateAvailableHosts (cidr : Nat) : Nat :=
  if 32 ≤ cidr then 0
  else if cidr = 31 then 2
  else 2 ^ (32 - cidr) - 2

/-- `getDefaultCidr` (lines 283-288). -/
def getDefaultCidr (firstOctet : Nat) : Nat :=
  if 1 ≤ firstOctet ∧ firstOctet ≤ 126 then 8
  else if 128 ≤ firstOctet ∧ firstOctet ≤ 191 then 16
  else if 192 ≤ firstOctet ∧ firstOctet ≤ 223 then 24
  else 0

/-- `getIPClass` (lines 295-302). -/
def getIPClass (firstOctet : Nat) : String :=
  if 1 ≤ firstOctet ∧ firstOctet ≤ 126 then "A"
  else if firstOctet = 127 then "Loopback"
  else if 128 ≤ firstOctet ∧ firstOctet ≤ 191 then "B"
  else if 192 ≤ firstOctet ∧ firstOctet ≤ 223 then "C"
  else if 224 ≤ firstOctet ∧ firstOctet ≤ 239 then "D"
  else "E"

/-- `getIPType` (lines 309-320): ordered `if` chain on the first two
octets. -/
def getIPType (ipBytes : List Nat) : String :=
  let a := ipBytes.getD 0 0
  let b := ipBytes.getD 1 0
  if a = 10 then "Private (RFC 1918)"
  else if a = 172 ∧ 16 ≤ b ∧ b ≤ 31 then "Private (RFC 1918)"
  else if a = 192 ∧ b = 168 then "Private (RFC 1918)"
  else if a = 127 then "Loopback"
  else if a = 169 ∧ b = 254 then "Link-local (APIPA)"
  else if 224 ≤ a ∧ a ≤ 239 then "Multicast"
  else if a = 0 then "This network (reserved)"
  else if a = 255 then "Broadcast (reserved)"
  else "Public"

/-- JavaScript `ToInt32`: reduce an integer to the signed 32-bit range. -/
def int32 (n : Int) : Int :=
  if 2147483648 ≤ n % 4294967296 then n % 4294967296 - 4294967296
  else n % 4294967296

/-- One accumulation step `result = (result << 1) | bit` of
`calculateHostNumber` / `calculateSubnetNumber`, under JavaScript's 32-bit
signed shift.  For `bit ≤ 1` the `| bit` is `+ bit` because the shifted
value is even. -/
def stepHN (r : Int) (bit : Nat) : Int :=
  int32 (r * 2) + bit

/-- The position-tracking loop of `calculateHostNumber`:
`if (pos >= cidr) result = (result << 1) | bit; pos++`. -/
def hostLoop : List Nat → Nat → Nat → Int → Int
  | [], _, _, r => r
  | b :: rest, cidr, pos, r =>
    hostLoop rest cidr (pos + 1) (if cidr ≤ pos then stepHN r b else r)

/-- `calculateHostNumber` (lines 349-361). -/
def calculateHostNumber (ipBytes : List Nat) (cidr : Nat) : Int :=
  if 32 ≤ cidr then 0 else hostLoop (bits32 ipBytes) cidr 0 0

/-- The position-tracking loop of `calculateSubnetNumber`:
`if (pos >= defaultCidr && pos < cidr) result = (result << 1) | bit`. -/
def subnetLoop : List Nat → Nat → Nat → Nat → Int → Int
  | [], _, _, _, r => r
  | b :: rest, cidr, defaultCidr, pos, r =>
    subnetLoop rest cidr defaultCidr (pos + 1)
      (if defaultCidr ≤ pos ∧ pos < cidr then stepHN r b else r)

/-- `calculateSubnetNumber` (lines 329-341).  Note the source returns
`result + 1`. -/
def calculateSubnetNumber (ipBytes : List Nat) (cidr defaultCidr : Nat) :
    Int :=
  if cidr ≤ defaultCidr then 0
  else subnetLoop (bits32 ipBytes) cidr defaultCidr 0 0 + 1

/-- JavaScript `StrWhiteSpace` as skipped by `parseInt`: WhiteSpace
(TAB, VT, FF, SP, NBSP, ZWNBSP/BOM, the Unicode Zs space separators) and
LineTerminator (LF, CR, LS, PS). -/
def isJsSpace (c : Char) : Bool :=
  ['\u0009', '\u000A', '\u000B', '\u000C', '\u000D', '\u0020', '\u00A0',
   '\u1680', '\u2028', '\u2029', '\u202F', '\u205F', '\u3000',
   '\uFEFF'].contains c
  || (decide ('\u2000' ≤ c) && decide (c ≤ '\u200A'))

/-- Hexadecimal digit characters accepted by `parseInt` in radix 16. -/
def jsHexDigit (c : Char) : Bool :=
  if c.isDigit then true
  else if 'a' ≤ c ∧ c ≤ 'f' then true
  else if 'A' ≤ c ∧ c ≤ 'F' then true
  else false

/-- Numeric value of a decimal or hexadecimal digit character. -/
def jsDigitVal (c : Char) : Nat :=
  if c.isDigit then c.toNat - 48
  else if 'a' ≤ c ∧ c ≤ 'f' then c.toNat - 87
  else c.toNat - 55

/-- JavaScript's `parseInt(s)` with no radix argument, over the character
list: skip leading `StrWhiteSpace`, take an optional sign, auto-detect a
`0x`/`0X` prefix (radix 16, prefix stripped) and otherwise use radix 10,
then take the maximal run of leading digits of that radix; `NaN` (here
`none`) when that run is empty.  Trailing content after the digit run is
ignored.  The value is exact (`Int`), which agrees with the program's
double wherever the [0,32] range check and conversion can observe it. -/
def parseIntChars (cs0 : List Char) : Option Int :=
  let cs := cs0.dropWhile isJsSpace
  let signed : Int × List Char :=
    match cs with
    | '-' :: rest => (-1, rest)
    | '+' :: rest => (1, rest)
    | _ => (1, cs)
  let based : Nat × List Char :=
    match signed.2 with
    | '0' :: 'x' :: rest => (16, rest)
    | '0' :: 'X' :: rest => (16, rest)
    | _ => (10, signed.2)
  let digits := based.2.takeWhile
    (fun c => if based.1 = 16 then jsHexDigit c else c.isDigit)
  if digits.isEmpty then none
  else some (signed.1 *
    digits.foldl (fun a c => (based.1 : Int) * a + (jsDigitVal c : Int)) 0)

/-- JavaScript's `parseInt(s)` in base 10. -/
def parseIntJS (s : String) : Option Int :=
  parseIntChars s.data

/-- `bytes.join('.')`. -/
def bytesToDotted (bytes : List Nat) : String :=
  String.intercalate "." (bytes.map toString)

/-- `mask.startsWith('/')` on the character list. -/
def startsWithSlash : List Char → Bool
  | c :: _ => c = '/'
  | [] => false

/-- `convertCidrIfNeeded` (lines 101-109): `null` (here `none`) exactly when
`parseInt` of the part after `/` is `NaN`, negative, or above 32.
`mask.startsWith('/')` and `mask.substring(1)` are modelled on the
character list of the input. -/
def convertCidrIfNeeded (mask : String) : Option String :=
  if startsWithSlash mask.data then
    match parseIntChars (mask.data.drop 1) with
    | none => none
    | some cidr =>
      if cidr < 0 ∨ 32 < cidr then none
      else some (bytesToDotted (cidrToMask cidr.toNat))
  else some mask

/-- Spec-side: the byte denoted by an 8-bit MSB-first sequence. -/
def byteOfBits (bs : List Nat) : Nat :=
  bs.foldl (fun a x => 2 * a + x) 0

/-- Spec-side: the four bytes denoted by a 32-bit MSB-first sequence. -/
def bytesOfBits32 (bs : List Nat) : List Nat :=
  [byteOfBits (bs.take 8), byteOfBits ((bs.drop 8).take 8),
   byteOfBits ((bs.drop 16).take 8), byteOfBits (bs.drop 24)]

/-- Spec-side: the unsigned 32-bit value of a byte quadruple. -/
def toNat32 (bytes : List Nat) : Nat :=
  bytes.foldl (fun a b => 256 * a + b) 0

/-- Spec-side: the unsigned integer denoted by an MSB-first bit sequence,
from accumulator `a` (exact, no 32-bit wrap). -/
def bitsValI (bs : List Nat) (a : Int) : Int :=
  bs.foldl (fun a b => 2 * a + (b : Int)) a

end IpCalc

namespace IpCalc

/-- `jsNotAnd255` is the 8-bit complement on bytes. -/
theorem jsNotAnd255_eq : ∀ b : Nat, b ≤ 255 → jsNotAnd255 b = 255 - b := by
  decide

/-- A byte and its 8-bit complement share no bits. -/
theorem and_compl8 : ∀ m : Nat, m ≤ 255 → m &&& (255 - m) = 0 := by
  decide

end IpCalc

/-- Claim C4: for every prefix length `p` in `[0, 32]`,
`maskToCidr (cidrToMask p) = p`. -/
theorem maskToCidr_cidrToMask_id :
    ∀ p : Nat, p ≤ 32 → IpCalc.maskToCidr (IpCalc.cidrToMask p) = some p := by
  decide

/-- Witness for C4 at `p = 24`. -/
theorem maskToCidr_cidrToMask_id_witness :
    IpCalc.maskToCidr (IpCalc.cidrToMask 24) = some 24 :=
  maskToCidr_cidrToMask_id 24 (by decide)

/-- Claim C6: `calculateAvailableHosts` is `0` at `/32`, `2` at `/31`, and
exactly `2 ^ (32 - cidr) - 2` otherwise; in particular `254` at `/24` and
`4294967294` at `/0`. -/
theorem availableHosts_spec :
    ∀ c : Nat, c ≤ 32 →
      (c = 32 → IpCalc.calculateAvailableHosts c = 0) ∧
      (c = 31 → IpCalc.calculateAvailableHosts c = 2) ∧
      (c ≤ 30 → IpCalc.calculateAvailableHosts c = 2 ^ (32 - c) - 2) ∧
      IpCalc.calculateAvailableHosts 24 = 254 ∧
      IpCalc.calculateAvailableHosts 0 = 4294967294 := by
  decide

/-- Witness for C6 at `c = 24`. -/
theorem availableHosts_spec_witness :
    IpCalc.calculateAvailableHosts 24 = 254 :=
  (availableHosts_spec 24 (by decide)).2.2.2.1

/-- Claim C1 (code bug evaluation): at IP `10.5.0.1`, cidr `16`, classful
default `8`, the code's `calculateSubnetNumber` returns `6`, the value of
the borrowed bits (`5`) plus one, contradicting the spec's scenario
(`subnetNumber 5`), the function's own doc comment, and the 0-based use in
`renderSubnetList`. -/
theorem subnetNumber_eval_10_5_0_1 :
    IpCalc.calculateSubnetNumber [10, 5, 0, 1] 16 8 = 6 := by
  decide

/-- Claim C10: a first octet of `0` falls through every class range in
`getIPClass`, giving label `"E"`, and through every range in
`getDefaultCidr`, giving classful default `0`. -/
theorem ipClass_zero_octet :
    IpCalc.getIPClass 0 = "E" ∧ IpCalc.getDefaultCidr 0 = 0 := by
  decide

/-- Claim C9: `getIPType` evaluates its rules in order, first match wins:
`10.*` private, `172.16-31.*` private, `192.168.*` private, `127.*`
loopback, `169.254.*` link-local, `224-239.*` multicast, `0.*` this-network,
`255.*` broadcast, anything else public. -/
theorem ipType_rules (a b c d : Nat)
    (ha : a ≤ 255) (hb : b ≤ 255) (hc : c ≤ 255) (hd : d ≤ 255) :
    (a = 10 → IpCalc.getIPType [a, b, c, d] = "Private (RFC 1918)") ∧
    (a = 172 ∧ 16 ≤ b ∧ b ≤ 31 →
      IpCalc.getIPType [a, b, c, d] = "Private (RFC 1918)") ∧
    (a = 192 ∧ b = 168 →
      IpCalc.getIPType [a, b, c, d] = "Private (RFC 1918)") ∧
    (a = 127 → IpCalc.getIPType [a, b, c, d] = "Loopback") ∧
    (a = 169 ∧ b = 254 → IpCalc.getIPType [a, b, c, d] = "Link-local (APIPA)") ∧
    (224 ≤ a ∧ a ≤ 239 → IpCalc.getIPType [a, b, c, d] = "Multicast") ∧
    (a = 0 → IpCalc.getIPType [a, b, c, d] = "This network (reserved)") ∧
    (a = 255 → IpCalc.getIPType [a, b, c, d] = "Broadcast (reserved)") ∧
    (¬a = 10 ∧ ¬(a = 172 ∧ 16 ≤ b ∧ b ≤ 31) ∧ ¬(a = 192 ∧ b = 168) ∧
        ¬a = 127 ∧ ¬(a = 169 ∧ b = 254) ∧ ¬(224 ≤ a ∧ a ≤ 239) ∧
        ¬a = 0 ∧ ¬a = 255 →
      IpCalc.getIPType [a, b, c, d] = "Public") := by
  simp only [IpCalc.getIPType, List.getD_cons_zero, List.getD_cons_succ]
  refine ⟨?_, ?_, ?_, ?_, ?_, ?_, ?_, ?_, ?_⟩ <;>
    · intro h
      split_ifs <;> first | rfl | omega

/-- Witness for C9 at `10.5.0.1`. -/
theorem ipType_rules_witness :
    IpCalc.getIPType [10, 5, 0, 1] = "Private (RFC 1918)" :=
  (ipType_rules 10 5 0 1 (by decide) (by decide) (by decide) (by decide)).1
    rfl

/-- Claim C5: for every valid (IP, mask) pair the network address is the
per-octet AND, the wildcard is the per-octet 8-bit complement, the
broadcast is network OR wildcard per octet, and network AND wildcard is
zero in every octet. -/
theorem network_broadcast_wildcard (i0 i1 i2 i3 m0 m1 m2 m3 : Nat)
    (hi0 : i0 ≤ 255) (hi1 : i1 ≤ 255) (hi2 : i2 ≤ 255) (hi3 : i3 ≤ 255)
    (hm0 : m0 ≤ 255) (hm1 : m1 ≤ 255) (hm2 : m2 ≤ 255) (hm3 : m3 ≤ 255)
    (hv : IpCalc.isValidMask [m0, m1, m2, m3] = true) :
    IpCalc.calculateNetworkAddress [i0, i1, i2, i3] [m0, m1, m2, m3] =
      [i0 &&& m0, i1 &&& m1, i2 &&& m2, i3 &&& m3] ∧
    IpCalc.wildcardBytes [m0, m1, m2, m3] =
      [255 - m0, 255 - m1, 255 - m2, 255 - m3] ∧
    IpCalc.calculateBroadcastAddress
        (IpCalc.calculateNetworkAddress [i0, i1, i2, i3] [m0, m1, m2, m3])
        [m0, m1, m2, m3] =
      [(i0 &&& m0) ||| (255 - m0), (i1 &&& m1) ||| (255 - m1),
       (i2 &&& m2) ||| (255 - m2), (i3 &&& m3) ||| (255 - m3)] ∧
    List.zipWith (fun x y => x &&& y)
        (IpCalc.calculateNetworkAddress [i0, i1, i2, i3] [m0, m1, m2, m3])
        (IpCalc.wildcardBytes [m0, m1, m2, m3]) =
      [0, 0, 0, 0] := by
  have w0 := IpCalc.jsNotAnd255_eq m0 hm0
  have w1 := IpCalc.jsNotAnd255_eq m1 hm1
  have w2 := IpCalc.jsNotAnd255_eq m2 hm2
  have w3 := IpCalc.jsNotAnd255_eq m3 hm3
  refine ⟨rfl, ?_, ?_, ?_⟩
  · simp [IpCalc.wildcardBytes, w0, w1, w2, w3]
  · simp [IpCalc.calculateBroadcastAddress, IpCalc.calculateNetworkAddress,
      w0, w1, w2, w3]
  · simp [IpCalc.calculateNetworkAddress, IpCalc.wildcardBytes, w0, w1, w2, w3,
      Nat.and_assoc, IpCalc.and_compl8 m0 hm0, IpCalc.and_compl8 m1 hm1,
      IpCalc.and_compl8 m2 hm2, IpCalc.and_compl8 m3 hm3]

/-- Witness for C5 at IP `192.168.1.10`, mask `255.255.255.0`. -/
theorem network_broadcast_wildcard_witness :
    List.zipWith (fun x y => x &&& y)
        (IpCalc.calculateNetworkAddress [192, 168, 1, 10] [255, 255, 255, 0])
        (IpCalc.wildcardBytes [255, 255, 255, 0]) =
      [0, 0, 0, 0] :=
  (network_broadcast_wildcard 192 168 1 10 255 255 255 0
      (by decide) (by decide) (by decide) (by decide)
      (by decide) (by decide) (by decide) (by decide) (by decide)).2.2.2

/-- Counterexample for C2: the remainder `24abc` is not an integer (it has
trailing content), yet the computation accepts it — JavaScript `parseInt`
keeps the leading digit run and ignores the rest. -/
theorem convertCidr_accepts_trailing_junk :
    IpCalc.convertCidrIfNeeded "/24abc" = some "255.255.255.0" := by
  decide

/-- Claim C2 (amended): for a mask input beginning with `/`, the
invalid-CIDR error occurs exactly when JavaScript `parseInt` of the
remainder (leading whitespace and sign allowed, maximal leading digit run,
`NaN` when that run is empty, trailing content ignored) is `NaN`, negative,
or above 32; an in-range parse is converted to the dotted-decimal mask. -/
theorem convertCidr_error_iff (s : String) (rest : List Char)
    (hs : s.data = '/' :: rest) :
    (IpCalc.convertCidrIfNeeded s = none ↔
      IpCalc.parseIntChars rest = none ∨
        ∃ c : Int, IpCalc.parseIntChars rest = some c ∧ (c < 0 ∨ 32 < c)) ∧
    (∀ c : Int, IpCalc.parseIntChars rest = some c → 0 ≤ c → c ≤ 32 →
      IpCalc.convertCidrIfNeeded s =
        some (IpCalc.bytesToDotted (IpCalc.cidrToMask c.toNat))) := by
  have hred : IpCalc.convertCidrIfNeeded s =
      (match IpCalc.parseIntChars rest with
       | none => none
       | some cidr =>
         if cidr < 0 ∨ 32 < cidr then none
         else some (IpCalc.bytesToDotted (IpCalc.cidrToMask cidr.toNat))) := by
    unfold IpCalc.convertCidrIfNeeded
    rw [hs]
    simp [IpCalc.startsWithSlash]
  rw [hred]
  cases h : IpCalc.parseIntChars rest with
  | none => simp
  | some c =>
    have hcase : (match (some c : Option Int) with
        | none => none
        | some cidr =>
          if cidr < 0 ∨ 32 < cidr then none
          else some (IpCalc.bytesToDotted (IpCalc.cidrToMask cidr.toNat))) =
        (if c < 0 ∨ 32 < c then none
         else some (IpCalc.bytesToDotted (IpCalc.cidrToMask c.toNat))) := rfl
    rw [hcase]
    constructor
    · by_cases hc : c < 0 ∨ 32 < c
      · rw [if_pos hc]
        constructor
        · intro _
          exact Or.inr ⟨c, rfl, hc⟩
        · intro _
          rfl
      · rw [if_neg hc]
        constructor
        · intro habs
          exact absurd habs (by simp)
        · rintro (hn | ⟨c', hc', hrange⟩)
          · exact absurd hn (by simp)
          · injection hc' with h'
            subst h'
            exact absurd hrange hc
    · intro c' hc' h0 h32
      injection hc' with h'
      subst h'
      rw [if_neg (by omega)]

/-- Witness for C2 (amended) at input `/33`. -/
theorem convertCidr_error_iff_witness :
    IpCalc.convertCidrIfNeeded "/33" = none :=
  ((convertCidr_error_iff "/33" ['3', '3'] (by decide)).1).mpr
    (Or.inr ⟨33, by decide, by decide⟩)

namespace IpCalc

/-- After a 0-bit has been seen (`zeroFound = true`), the scan of
`maskToCidr` succeeds exactly when every remaining bit is 0, and adds
nothing to the count. -/
theorem maskToCidrBits_true :
    ∀ (bs : List Nat) (acc : Nat), (∀ x ∈ bs, x ≤ 1) →
      maskToCidrBits bs acc true =
        if ∀ x ∈ bs, x = 0 then some acc else none := by
  intro bs
  induction bs with
  | nil =>
    intro acc h
    simp [maskToCidrBits]
  | cons b rest ih =>
    intro acc h
    have hb : b ≤ 1 := h b (List.mem_cons_self b rest)
    have hrest : ∀ x ∈ rest, x ≤ 1 := fun x hx => h x (List.mem_cons_of_mem _ hx)
    by_cases hb1 : b = 1
    · subst hb1
      have e : maskToCidrBits (1 :: rest) acc true = none := rfl
      rw [e, if_neg]
      intro hall
      exact absurd (hall 1 (List.mem_cons_self 1 rest)) (by omega)
    · have hb0 : b = 0 := by omega
      subst hb0
      have e : maskToCidrBits (0 :: rest) acc true =
          maskToCidrBits rest acc true := rfl
      rw [e, ih acc hrest]
      by_cases hall : ∀ x ∈ rest, x = 0
      · rw [if_pos hall, if_pos]
        intro x hx
        rcases List.mem_cons.mp hx with h1 | h2
        · exact h1
        · exact hall x h2
      · rw [if_neg hall, if_neg]
        intro hall2
        exact hall fun x hx => hall2 x (List.mem_cons_of_mem _ hx)

/-- Before any 0-bit has been seen, the scan of `maskToCidr` succeeds with
count `acc + k` exactly when the remaining bits are `k` ones followed by
zeros. -/
theorem maskToCidrBits_false :
    ∀ (bs : List Nat) (acc n : Nat), (∀ x ∈ bs, x ≤ 1) →
      (maskToCidrBits bs acc false = some n ↔
        ∃ k, k ≤ bs.length ∧
          bs = List.replicate k 1 ++ List.replicate (bs.length - k) 0 ∧
          n = acc + k) := by
  intro bs
  induction bs with
  | nil =>
    intro acc n h
    constructor
    · intro he
      injection he with he'
      exact ⟨0, by simp, by simp, by omega⟩
    · rintro ⟨k, hk, hbs, hn⟩
      have hk0 : k = 0 := by simp only [List.length_nil] at hk; omega
      subst hk0
      have e : maskToCidrBits [] acc false = some acc := rfl
      rw [e]
      exact congrArg some (by omega)
  | cons b rest ih =>
    intro acc n h
    have hb : b ≤ 1 := h b (List.mem_cons_self b rest)
    have hrest : ∀ x ∈ rest, x ≤ 1 := fun x hx => h x (List.mem_cons_of_mem _ hx)
    by_cases hb1 : b = 1
    · subst hb1
      have e : maskToCidrBits (1 :: rest) acc false =
          maskToCidrBits rest (acc + 1) false := rfl
      rw [e, ih (acc + 1) n hrest]
      constructor
      · rintro ⟨k, hk, hbs, hn⟩
        refine ⟨k + 1, by simp; omega, ?_, by omega⟩
        simp only [List.replicate_succ, List.cons_append, List.length_cons,
          Nat.succ_sub_succ_eq_sub]
        exact congrArg (1 :: ·) hbs
      · rintro ⟨k, hk, hbs, hn⟩
        cases k with
        | zero =>
          rw [List.length_cons, Nat.sub_zero, List.replicate_succ] at hbs
          simp at hbs
        | succ k' =>
          simp only [List.replicate_succ, List.cons_append, List.length_cons,
            Nat.succ_sub_succ_eq_sub, List.cons.injEq, true_and] at hbs
          refine ⟨k', by simp at hk; omega, hbs, by omega⟩
    · have hb0 : b = 0 := by omega
      subst hb0
      have e : maskToCidrBits (0 :: rest) acc false =
          maskToCidrBits rest acc true := rfl
      rw [e, maskToCidrBits_true rest acc hrest]
      by_cases hall : ∀ x ∈ rest, x = 0
      · rw [if_pos hall]
        constructor
        · intro he
          injection he with he'
          refine ⟨0, by simp, ?_, by omega⟩
          simp only [List.replicate_zero, List.nil_append, Nat.sub_zero]
          rw [List.eq_replicate_iff]
          constructor
          · simp
          · intro x hx
            rcases List.mem_cons.mp hx with h1 | h2
            · exact h1
            · exact hall x h2
        · rintro ⟨k, hk, hbs, hn⟩
          have hk0 : k = 0 := by
            cases k with
            | zero => rfl
            | succ k' => simp [List.replicate_succ] at hbs
          subst hk0
          exact congrArg some (by omega)
      · rw [if_neg hall]
        constructor
        · intro he
          exact absurd he (by simp)
        · rintro ⟨k, hk, hbs, hn⟩
          have hk0 : k = 0 := by
            cases k with
            | zero => rfl
            | succ k' => simp [List.replicate_succ] at hbs
          subst hk0
          exfalso
          apply hall
          intro x hx
          simp only [List.replicate_zero, List.nil_append, Nat.sub_zero] at hbs
          rw [List.eq_replicate_iff] at hbs
          exact hbs.2 x (List.mem_cons_of_mem _ hx)

end IpCalc

namespace IpCalc

/-- A leading 1-bit does not affect the `indexOf('0')`-based contiguity
check. -/
theorem isValidMaskBits_cons_one (rest : List Nat) :
    isValidMaskBits (1 :: rest) = isValidMaskBits rest := by
  unfold isValidMaskBits
  rw [List.findIdx?_cons, List.findIdx?_succ]
  cases h : List.findIdx? (fun bit => bit == 0) rest with
  | none => simp [h]
  | some i => simp [h]

/-- With a leading 0-bit, the contiguity check accepts exactly when no 1-bit
remains. -/
theorem isValidMaskBits_cons_zero (rest : List Nat) :
    isValidMaskBits (0 :: rest) = !rest.contains 1 := by
  unfold isValidMaskBits
  simp [List.findIdx?_cons]

/-- The `isValidMask` contiguity check accepts a bit sequence exactly when
it is some ones followed by zeros. -/
theorem isValidMaskBits_iff :
    ∀ (bs : List Nat), (∀ x ∈ bs, x ≤ 1) →
      (isValidMaskBits bs = true ↔
        ∃ k, k ≤ bs.length ∧
          bs = List.replicate k 1 ++ List.replicate (bs.length - k) 0) := by
  intro bs
  induction bs with
  | nil =>
    intro h
    constructor
    · intro _
      exact ⟨0, by simp, by simp⟩
    · intro _
      rfl
  | cons b rest ih =>
    intro h
    have hb : b ≤ 1 := h b (List.mem_cons_self b rest)
    have hrest : ∀ x ∈ rest, x ≤ 1 := fun x hx => h x (List.mem_cons_of_mem _ hx)
    by_cases hb1 : b = 1
    · subst hb1
      rw [isValidMaskBits_cons_one, ih hrest]
      constructor
      · rintro ⟨k, hk, hbs⟩
        refine ⟨k + 1, by simp; omega, ?_⟩
        simp only [List.replicate_succ, List.cons_append, List.length_cons,
          Nat.succ_sub_succ_eq_sub]
        exact congrArg (1 :: ·) hbs
      · rintro ⟨k, hk, hbs⟩
        cases k with
        | zero =>
          rw [List.length_cons, Nat.sub_zero, List.replicate_succ] at hbs
          simp at hbs
        | succ k' =>
          simp only [List.replicate_succ, List.cons_append, List.length_cons,
            Nat.succ_sub_succ_eq_sub, List.cons.injEq, true_and] at hbs
          exact ⟨k', by simp at hk; omega, hbs⟩
    · have hb0 : b = 0 := by omega
      subst hb0
      rw [isValidMaskBits_cons_zero]
      constructor
      · intro hc
        simp only [Bool.not_eq_true', List.contains_eq_any_beq,
          List.any_eq_false] at hc
        refine ⟨0, by simp, ?_⟩
        simp only [List.replicate_zero, List.nil_append, Nat.sub_zero]
        rw [List.eq_replicate_iff]
        refine ⟨rfl, ?_⟩
        intro x hx
        rcases List.mem_cons.mp hx with h1 | h2
        · exact h1
        · have hx1 : ¬((1 : Nat) == x) = true := hc x h2
          have hxle := hrest x h2
          simp only [beq_iff_eq] at hx1
          omega
      · rintro ⟨k, hk, hbs⟩
        have hk0 : k = 0 := by
          cases k with
          | zero => rfl
          | succ k' => simp [List.replicate_succ] at hbs
        subst hk0
        simp only [List.replicate_zero, List.nil_append, Nat.sub_zero] at hbs
        rw [List.eq_replicate_iff] at hbs
        have hmem : (1 : Nat) ∉ rest := by
          intro hmem
          have := hbs.2 1 (List.mem_cons_of_mem _ hmem)
          omega
        simp only [Bool.not_eq_true', List.contains_eq_any_beq,
          List.any_eq_false]
        intro x hx
        simp only [beq_iff_eq]
        intro he
        subst he
        exact hmem hx

end IpCalc

namespace IpCalc

/-- Every entry of a 32-bit sequence is a bit. -/
theorem bits32_le_one (m : List Nat) : ∀ x ∈ bits32 m, x ≤ 1 := by
  intro x hx
  simp only [bits32, List.mem_flatten, List.mem_map] at hx
  obtain ⟨l, ⟨b, hb, rfl⟩, hxl⟩ := hx
  simp only [bitsOfByte, List.mem_map] at hxl
  obtain ⟨i, hi, rfl⟩ := hxl
  exact Nat.and_le_right

/-- The 32-bit sequence of a quadruple, unfolded. -/
theorem bits32_quad (a b c d : Nat) :
    bits32 [a, b, c, d] =
      bitsOfByte a ++ (bitsOfByte b ++ (bitsOfByte c ++ (bitsOfByte d ++ []))) :=
  rfl

/-- A byte contributes 8 bits. -/
theorem length_bitsOfByte (b : Nat) : (bitsOfByte b).length = 8 := by
  simp [bitsOfByte]

/-- A quadruple has 32 bits. -/
theorem bits32_length (a b c d : Nat) : (bits32 [a, b, c, d]).length = 32 := by
  simp [bits32_quad, length_bitsOfByte]

/-- `cidrToMask` of an in-range prefix produces the prefix-many 1-bits
followed by 0-bits. -/
theorem bits32_cidrToMask :
    ∀ n : Nat, n ≤ 32 →
      bits32 (cidrToMask n) =
        List.replicate n 1 ++ List.replicate (32 - n) 0 := by
  decide

/-- `cidrToMask` of an in-range prefix is a byte quadruple. -/
theorem cidrToMask_shape :
    ∀ n : Nat, n ≤ 32 →
      (cidrToMask n).length = 4 ∧ ∀ x ∈ cidrToMask n, x ≤ 255 := by
  decide

/-- Reading a byte back from its bit sequence. -/
theorem byteOfBits_bitsOfByte :
    ∀ b : Nat, b ≤ 255 → byteOfBits (bitsOfByte b) = b := by
  decide

/-- Reading a quadruple back from its 32-bit sequence. -/
theorem bytesOfBits32_bits32 (a b c d : Nat)
    (ha : a ≤ 255) (hb : b ≤ 255) (hc : c ≤ 255) (hd : d ≤ 255) :
    bytesOfBits32 (bits32 [a, b, c, d]) = [a, b, c, d] := by
  have e : bytesOfBits32 (bits32 [a, b, c, d]) =
      [byteOfBits (bitsOfByte a), byteOfBits (bitsOfByte b),
       byteOfBits (bitsOfByte c), byteOfBits (bitsOfByte d)] := rfl
  rw [e, byteOfBits_bitsOfByte a ha, byteOfBits_bitsOfByte b hb,
    byteOfBits_bitsOfByte c hc, byteOfBits_bitsOfByte d hd]

/-- A list of length four is a literal quadruple. -/
theorem list_len4 {α : Type} (l : List α) (h : l.length = 4) :
    ∃ a b c d, l = [a, b, c, d] := by
  rcases l with _ | ⟨a, _ | ⟨b, _ | ⟨c, _ | ⟨d, _ | ⟨e, rest⟩⟩⟩⟩⟩ <;>
    simp only [List.length_cons, List.length_nil] at h
  · omega
  · omega
  · omega
  · omega
  · exact ⟨a, b, c, d, rfl⟩
  · omega

/-- A successful `maskToCidr` determines the mask: the count is at most 32
and `cidrToMask` rebuilds exactly the input quadruple. -/
theorem maskToCidr_some_eq (m0 m1 m2 m3 n : Nat)
    (h0 : m0 ≤ 255) (h1 : m1 ≤ 255) (h2 : m2 ≤ 255) (h3 : m3 ≤ 255)
    (hn : maskToCidr [m0, m1, m2, m3] = some n) :
    n ≤ 32 ∧ cidrToMask n = [m0, m1, m2, m3] := by
  have hbits := bits32_le_one [m0, m1, m2, m3]
  have hlen : (bits32 [m0, m1, m2, m3]).length = 32 := bits32_length m0 m1 m2 m3
  unfold maskToCidr at hn
  rw [maskToCidrBits_false _ 0 n hbits] at hn
  obtain ⟨k, hk, hbs, hnk⟩ := hn
  have hnk' : n = k := by omega
  subst hnk'
  rw [hlen] at hk hbs
  refine ⟨hk, ?_⟩
  have hpat : bits32 (cidrToMask n) =
      List.replicate n 1 ++ List.replicate (32 - n) 0 := bits32_cidrToMask n hk
  have hbeq : bits32 (cidrToMask n) = bits32 [m0, m1, m2, m3] := by
    rw [hpat, hbs]
  obtain ⟨hlen4, hb255⟩ := cidrToMask_shape n hk
  obtain ⟨c0, c1, c2, c3, hc⟩ := list_len4 (cidrToMask n) hlen4
  have hc0 : c0 ≤ 255 := hb255 c0 (by rw [hc]; simp)
  have hc1 : c1 ≤ 255 := hb255 c1 (by rw [hc]; simp)
  have hc2 : c2 ≤ 255 := hb255 c2 (by rw [hc]; simp)
  have hc3 : c3 ≤ 255 := hb255 c3 (by rw [hc]; simp)
  rw [hc] at hbeq ⊢
  have hfin := congrArg bytesOfBits32 hbeq
  rw [bytesOfBits32_bits32 c0 c1 c2 c3 hc0 hc1 hc2 hc3,
    bytesOfBits32_bits32 m0 m1 m2 m3 h0 h1 h2 h3] at hfin
  exact hfin

end IpCalc

/-- Claim C3: for every byte quadruple `m`, `isValidMask m` accepts exactly
when `maskToCidr m` does not signal `Invalid`, and on valid masks
`cidrToMask (maskToCidr m) = m`. -/
theorem maskValidity_roundTrip (m0 m1 m2 m3 : Nat)
    (h0 : m0 ≤ 255) (h1 : m1 ≤ 255) (h2 : m2 ≤ 255) (h3 : m3 ≤ 255) :
    (IpCalc.isValidMask [m0, m1, m2, m3] = true ↔
      IpCalc.maskToCidr [m0, m1, m2, m3] ≠ none) ∧
    (∀ n, IpCalc.maskToCidr [m0, m1, m2, m3] = some n →
      IpCalc.cidrToMask n = [m0, m1, m2, m3]) := by
  constructor
  · have hbits := IpCalc.bits32_le_one [m0, m1, m2, m3]
    have hv : IpCalc.isValidMask [m0, m1, m2, m3] =
        IpCalc.isValidMaskBits (IpCalc.bits32 [m0, m1, m2, m3]) := by
      unfold IpCalc.isValidMask
      rw [if_neg]
      intro hany
      simp only [List.any_eq_true, decide_eq_true_eq] at hany
      obtain ⟨x, hx, hlt⟩ := hany
      simp only [List.mem_cons, List.not_mem_nil, or_false] at hx
      rcases hx with rfl | rfl | rfl | rfl <;> omega
    rw [hv, IpCalc.isValidMaskBits_iff _ hbits]
    unfold IpCalc.maskToCidr
    constructor
    · rintro ⟨k, hk, hbs⟩
      intro hnone
      have hsome : IpCalc.maskToCidrBits (IpCalc.bits32 [m0, m1, m2, m3]) 0 false =
          some (0 + k) :=
        (IpCalc.maskToCidrBits_false _ 0 (0 + k) hbits).mpr ⟨k, hk, hbs, rfl⟩
      rw [hsome] at hnone
      exact Option.noConfusion hnone
    · intro hne
      obtain ⟨n, hn⟩ := Option.ne_none_iff_exists'.mp hne
      obtain ⟨k, hk, hbs, _⟩ := (IpCalc.maskToCidrBits_false _ 0 n hbits).mp hn
      exact ⟨k, hk, hbs⟩
  · intro n hn
    exact (IpCalc.maskToCidr_some_eq m0 m1 m2 m3 n h0 h1 h2 h3 hn).2

/-- Witness for C3 at the valid mask `255.255.255.0`. -/
theorem maskValidity_roundTrip_witness :
    IpCalc.cidrToMask 24 = [255, 255, 255, 0] :=
  (maskValidity_roundTrip 255 255 255 0
      (by decide) (by decide) (by decide) (by decide)).2 24 (by decide)

namespace IpCalc

/-- For prefixes up to 30, the mask's last octet is at most 252. -/
theorem cidrToMask_last_le :
    ∀ n : Nat, n ≤ 30 → (cidrToMask n).getD 3 0 ≤ 252 := by
  decide

/-- A bitwise or is positive when its right operand is. -/
theorem or_pos_of_right (x y : Nat) (hy : 0 < y) : 0 < x ||| y := by
  rcases Nat.eq_zero_or_pos (x ||| y) with hz | hp
  · exfalso
    have hy0 : y = 0 := by
      apply Nat.eq_of_testBit_eq
      intro i
      have ht := congrArg (fun t => Nat.testBit t i) hz
      simp only [Nat.testBit_lor, Nat.zero_testBit] at ht
      simp [Bool.or_eq_false_iff.mp ht |>.2, Nat.zero_testBit]
    omega
  · exact hp

/-- The octet-carry increment of the source adds one when the last octet is
below 255. -/
theorem incFrom_quad (a b c d : Nat) (hd : d < 255) :
    (incFrom ([a, b, c, d] : List Nat).reverse).reverse = [a, b, c, d + 1] := by
  have e1 : ([a, b, c, d] : List Nat).reverse = [d, c, b, a] := rfl
  rw [e1]
  have e2 : incFrom [d, c, b, a] = (d + 1) :: [c, b, a] := by
    unfold incFrom
    rw [if_pos hd]
  rw [e2]
  rfl

/-- The octet-borrow decrement of the source subtracts one when the last
octet is positive. -/
theorem decFrom_quad (a b c d : Nat) (hd : 0 < d) :
    (decFrom ([a, b, c, d] : List Nat).reverse).reverse = [a, b, c, d - 1] := by
  have e1 : ([a, b, c, d] : List Nat).reverse = [d, c, b, a] := rfl
  rw [e1]
  have e2 : decFrom [d, c, b, a] = (d - 1) :: [c, b, a] := by
    unfold decFrom
    rw [if_pos hd]
  rw [e2]
  rfl

/-- `toNat32` of a quadruple, unfolded. -/
theorem toNat32_quad (a b c d : Nat) :
    toNat32 [a, b, c, d] = 256 * (256 * (256 * (256 * 0 + a) + b) + c) + d :=
  rfl

end IpCalc

/-- Claim C8: for every valid (IP, mask) pair, first/last usable are the
`none` sentinel when the prefix length is at least 31, and otherwise are the
network address plus one and the broadcast address minus one as 32-bit
values. -/
theorem usable_range_spec (i0 i1 i2 i3 m0 m1 m2 m3 n : Nat)
    (hi0 : i0 ≤ 255) (hi1 : i1 ≤ 255) (hi2 : i2 ≤ 255) (hi3 : i3 ≤ 255)
    (hm0 : m0 ≤ 255) (hm1 : m1 ≤ 255) (hm2 : m2 ≤ 255) (hm3 : m3 ≤ 255)
    (hn : IpCalc.maskToCidr [m0, m1, m2, m3] = some n) :
    (31 ≤ n →
      IpCalc.calculateFirstUsableAddress
        (IpCalc.calculateNetworkAddress [i0, i1, i2, i3] [m0, m1, m2, m3])
        n = none ∧
      IpCalc.calculateLastUsableAddress
        (IpCalc.calculateBroadcastAddress
          (IpCalc.calculateNetworkAddress [i0, i1, i2, i3] [m0, m1, m2, m3])
          [m0, m1, m2, m3])
        n = none) ∧
    (n ≤ 30 →
      ∃ f l,
        IpCalc.calculateFirstUsableAddress
          (IpCalc.calculateNetworkAddress [i0, i1, i2, i3] [m0, m1, m2, m3])
          n = some f ∧
        IpCalc.calculateLastUsableAddress
          (IpCalc.calculateBroadcastAddress
            (IpCalc.calculateNetworkAddress [i0, i1, i2, i3] [m0, m1, m2, m3])
            [m0, m1, m2, m3])
          n = some l ∧
        IpCalc.toNat32 f =
          IpCalc.toNat32
            (IpCalc.calculateNetworkAddress [i0, i1, i2, i3] [m0, m1, m2, m3])
            + 1 ∧
        IpCalc.toNat32 l =
          IpCalc.toNat32
            (IpCalc.calculateBroadcastAddress
              (IpCalc.calculateNetworkAddress [i0, i1, i2, i3] [m0, m1, m2, m3])
              [m0, m1, m2, m3])
            - 1) := by
  have hnet : IpCalc.calculateNetworkAddress [i0, i1, i2, i3] [m0, m1, m2, m3] =
      [i0 &&& m0, i1 &&& m1, i2 &&& m2, i3 &&& m3] := rfl
  have hbc : IpCalc.calculateBroadcastAddress
      [i0 &&& m0, i1 &&& m1, i2 &&& m2, i3 &&& m3] [m0, m1, m2, m3] =
      [(i0 &&& m0) ||| IpCalc.jsNotAnd255 m0, (i1 &&& m1) ||| IpCalc.jsNotAnd255 m1,
       (i2 &&& m2) ||| IpCalc.jsNotAnd255 m2, (i3 &&& m3) ||| IpCalc.jsNotAnd255 m3] :=
    rfl
  constructor
  · intro h31
    constructor
    · simp only [IpCalc.calculateFirstUsableAddress]
      rw [if_pos h31]
    · simp only [IpCalc.calculateLastUsableAddress]
      rw [if_pos h31]
  · intro h30
    obtain ⟨hn32, hmask⟩ :=
      IpCalc.maskToCidr_some_eq m0 m1 m2 m3 n hm0 hm1 hm2 hm3 hn
    have hm3le : m3 ≤ 252 := by
      have hgd := IpCalc.cidrToMask_last_le n h30
      rw [hmask] at hgd
      simpa using hgd
    have hnet3 : (i3 &&& m3) ≤ 252 := le_trans Nat.and_le_right hm3le
    have hw3 : IpCalc.jsNotAnd255 m3 = 255 - m3 := IpCalc.jsNotAnd255_eq m3 hm3
    have hbc3pos : 0 < (i3 &&& m3) ||| IpCalc.jsNotAnd255 m3 := by
      rw [hw3]
      exact IpCalc.or_pos_of_right _ _ (by omega)
    refine ⟨[i0 &&& m0, i1 &&& m1, i2 &&& m2, (i3 &&& m3) + 1],
      [(i0 &&& m0) ||| IpCalc.jsNotAnd255 m0, (i1 &&& m1) ||| IpCalc.jsNotAnd255 m1,
       (i2 &&& m2) ||| IpCalc.jsNotAnd255 m2,
       ((i3 &&& m3) ||| IpCalc.jsNotAnd255 m3) - 1], ?_, ?_, ?_, ?_⟩
    · rw [hnet]
      simp only [IpCalc.calculateFirstUsableAddress]
      rw [if_neg (by omega), IpCalc.incFrom_quad _ _ _ _ (by omega)]
    · rw [hnet, hbc]
      simp only [IpCalc.calculateLastUsableAddress]
      rw [if_neg (by omega), IpCalc.decFrom_quad _ _ _ _ hbc3pos]
    · rw [hnet]
      rw [IpCalc.toNat32_quad, IpCalc.toNat32_quad]
      omega
    · rw [hnet, hbc]
      rw [IpCalc.toNat32_quad, IpCalc.toNat32_quad]
      omega

/-- Witness for C8 at IP `192.168.1.10`, mask `255.255.255.0` (prefix 24). -/
theorem usable_range_spec_witness :
    ∃ f l,
      IpCalc.calculateFirstUsableAddress
        (IpCalc.calculateNetworkAddress [192, 168, 1, 10] [255, 255, 255, 0])
        24 = some f ∧
      IpCalc.calculateLastUsableAddress
        (IpCalc.calculateBroadcastAddress
          (IpCalc.calculateNetworkAddress [192, 168, 1, 10] [255, 255, 255, 0])
          [255, 255, 255, 0])
        24 = some l ∧
      IpCalc.toNat32 f =
        IpCalc.toNat32
          (IpCalc.calculateNetworkAddress [192, 168, 1, 10] [255, 255, 255, 0])
          + 1 ∧
      IpCalc.toNat32 l =
        IpCalc.toNat32
          (IpCalc.calculateBroadcastAddress
            (IpCalc.calculateNetworkAddress [192, 168, 1, 10] [255, 255, 255, 0])
            [255, 255, 255, 0])
          - 1 :=
  (usable_range_spec 192 168 1 10 255 255 255 0 24
      (by decide) (by decide) (by decide) (by decide)
      (by decide) (by decide) (by decide) (by decide) (by decide)).2
    (by decide)

namespace IpCalc

/-- `int32` leaves the residue modulo `2^32` unchanged. -/
theorem int32_emod (a : Int) :
    int32 a % 4294967296 = a % 4294967296 := by
  unfold int32
  split_ifs <;> omega

/-- `int32` only depends on the residue modulo `2^32`. -/
theorem int32_eq_of_emod_eq (a b : Int)
    (h : a % 4294967296 = b % 4294967296) : int32 a = int32 b := by
  unfold int32
  rw [h]

/-- `int32` fixes values already in the signed 32-bit range. -/
theorem int32_of_range (r : Int) (h1 : -2147483648 ≤ r)
    (h2 : r < 2147483648) : int32 r = r := by
  unfold int32
  split_ifs <;> omega

/-- One `(result << 1) | bit` step stays in the signed 32-bit range: the
shifted value is even, so it is at most `2^31 - 2` and the or-ed bit cannot
overflow. -/
theorem stepHN_range (r : Int) (bit : Nat) (hb : bit ≤ 1) :
    -2147483648 ≤ stepHN r bit ∧ stepHN r bit < 2147483648 := by
  unfold stepHN int32
  split_ifs <;> omega

/-- The exact accumulator only depends on its start modulo `2^32`. -/
theorem bitsValI_emod_congr :
    ∀ (bs : List Nat) (a b : Int), a % 4294967296 = b % 4294967296 →
      bitsValI bs a % 4294967296 = bitsValI bs b % 4294967296 := by
  intro bs
  induction bs with
  | nil =>
    intro a b h
    exact h
  | cons x rest ih =>
    intro a b h
    have e1 : bitsValI (x :: rest) a = bitsValI rest (2 * a + x) := rfl
    have e2 : bitsValI (x :: rest) b = bitsValI rest (2 * b + x) := rfl
    rw [e1, e2]
    exact ih (2 * a + x) (2 * b + x) (by omega)

/-- The JavaScript accumulation over a bit list equals `int32` of the exact
accumulation, for any in-range start. -/
theorem foldl_stepHN_eq :
    ∀ (bs : List Nat) (r : Int), (∀ x ∈ bs, x ≤ 1) →
      -2147483648 ≤ r → r < 2147483648 →
      bs.foldl stepHN r = int32 (bitsValI bs r) := by
  intro bs
  induction bs with
  | nil =>
    intro r h h1 h2
    exact (int32_of_range r h1 h2).symm
  | cons b rest ih =>
    intro r h h1 h2
    have hb : b ≤ 1 := h b (List.mem_cons_self b rest)
    have hrest : ∀ x ∈ rest, x ≤ 1 := fun x hx => h x (List.mem_cons_of_mem _ hx)
    rw [List.foldl_cons]
    obtain ⟨hr1, hr2⟩ := stepHN_range r b hb
    rw [ih (stepHN r b) hrest hr1 hr2]
    have e : bitsValI (b :: rest) r = bitsValI rest (2 * r + b) := rfl
    rw [e]
    apply int32_eq_of_emod_eq
    apply bitsValI_emod_congr
    unfold stepHN int32
    split_ifs <;> omega

/-- The exact accumulator over `n` bits from a nonnegative start stays below
`(start + 1) * 2^n`. -/
theorem bitsValI_bound :
    ∀ (bs : List Nat) (a : Int), (∀ x ∈ bs, x ≤ 1) → 0 ≤ a →
      0 ≤ bitsValI bs a ∧ bitsValI bs a < (a + 1) * 2 ^ bs.length := by
  intro bs
  induction bs with
  | nil =>
    intro a h ha
    have e : bitsValI ([] : List Nat) a = a := rfl
    rw [e]
    constructor
    · exact ha
    · simp only [List.length_nil, pow_zero, mul_one]
      omega
  | cons b rest ih =>
    intro a h ha
    have hb : b ≤ 1 := h b (List.mem_cons_self b rest)
    have hrest : ∀ x ∈ rest, x ≤ 1 := fun x hx => h x (List.mem_cons_of_mem _ hx)
    have e : bitsValI (b :: rest) a = bitsValI rest (2 * a + b) := rfl
    rw [e]
    obtain ⟨ih1, ih2⟩ := ih (2 * a + b) hrest (by omega)
    refine ⟨ih1, ?_⟩
    have hpow : (0 : Int) ≤ 2 ^ rest.length := by positivity
    calc bitsValI rest (2 * a + b) < (2 * a + b + 1) * 2 ^ rest.length := ih2
      _ ≤ (2 * (a + 1)) * 2 ^ rest.length := by
          apply mul_le_mul_of_nonneg_right _ hpow
          omega
      _ = (a + 1) * 2 ^ (rest.length + 1) := by
          rw [pow_succ]
          ring
      _ = (a + 1) * 2 ^ (b :: rest).length := by
          rw [List.length_cons]

/-- The position-tracking host loop skips exactly the first
`cidr - pos` bits. -/
theorem hostLoop_eq_drop :
    ∀ (bs : List Nat) (cidr pos : Nat) (r : Int),
      hostLoop bs cidr pos r = (bs.drop (cidr - pos)).foldl stepHN r := by
  intro bs
  induction bs with
  | nil =>
    intro cidr pos r
    simp [hostLoop, List.drop_nil]
  | cons b rest ih =>
    intro cidr pos r
    unfold hostLoop
    by_cases hpos : cidr ≤ pos
    · rw [if_pos hpos, ih]
      have e1 : cidr - (pos + 1) = 0 := by omega
      have e2 : cidr - pos = 0 := by omega
      rw [e1, e2, List.drop_zero, List.drop_zero, List.foldl_cons]
    · rw [if_neg hpos, ih]
      have e1 : cidr - pos = (cidr - (pos + 1)) + 1 := by omega
      rw [e1, List.drop_succ_cons]

end IpCalc

/-- Counterexample for C7: at IP `128.0.0.0` with `cidr = 0`, the code's
host number is the negative signed 32-bit value `-2147483648`, not the
unsigned `2147483648` the claim requires — JavaScript's `<<` and `|` work
on signed 32-bit integers. -/
theorem hostNumber_wraps_negative :
    IpCalc.calculateHostNumber [128, 0, 0, 0] 0 = -2147483648 ∧
    (-2147483648 : Int) ≠ 2147483648 := by
  decide

/-- Claim C7 (amended): `calculateHostNumber` is `0` for `cidr ≥ 32`; for
`1 ≤ cidr ≤ 31` it is the (nonnegative) unsigned integer formed by the IP
bits in positions `[cidr, 32)` MSB-first; for `cidr = 0` it is the signed
32-bit (`int32`) reduction of the full 32-bit value of the IP, which is
negative when the top bit is set. -/
theorem hostNumber_amended (i0 i1 i2 i3 : Nat)
    (hi0 : i0 ≤ 255) (hi1 : i1 ≤ 255) (hi2 : i2 ≤ 255) (hi3 : i3 ≤ 255)
    (cidr : Nat) :
    (32 ≤ cidr → IpCalc.calculateHostNumber [i0, i1, i2, i3] cidr = 0) ∧
    (1 ≤ cidr → cidr ≤ 31 →
      IpCalc.calculateHostNumber [i0, i1, i2, i3] cidr =
        IpCalc.bitsValI ((IpCalc.bits32 [i0, i1, i2, i3]).drop cidr) 0 ∧
      0 ≤ IpCalc.bitsValI ((IpCalc.bits32 [i0, i1, i2, i3]).drop cidr) 0) ∧
    (cidr = 0 →
      IpCalc.calculateHostNumber [i0, i1, i2, i3] 0 =
        IpCalc.int32 (IpCalc.bitsValI (IpCalc.bits32 [i0, i1, i2, i3]) 0)) := by
  refine ⟨?_, ?_, ?_⟩
  · intro h32
    unfold IpCalc.calculateHostNumber
    rw [if_pos h32]
  · intro h1 h31
    have hbits : ∀ x ∈ (IpCalc.bits32 [i0, i1, i2, i3]).drop cidr, x ≤ 1 :=
      fun x hx => IpCalc.bits32_le_one _ x (List.mem_of_mem_drop hx)
    obtain ⟨hnn, hub⟩ := IpCalc.bitsValI_bound _ 0 hbits (le_refl 0)
    have hlen : ((IpCalc.bits32 [i0, i1, i2, i3]).drop cidr).length = 32 - cidr := by
      rw [List.length_drop, IpCalc.bits32_length]
    have hpow : (2 : Int) ^ ((IpCalc.bits32 [i0, i1, i2, i3]).drop cidr).length ≤
        2 ^ 31 := by
      apply pow_le_pow_right₀ (by omega)
      omega
    have hub' : IpCalc.bitsValI ((IpCalc.bits32 [i0, i1, i2, i3]).drop cidr) 0 <
        2147483648 := by
      calc IpCalc.bitsValI ((IpCalc.bits32 [i0, i1, i2, i3]).drop cidr) 0
          < 2 ^ ((IpCalc.bits32 [i0, i1, i2, i3]).drop cidr).length := by
            simpa using hub
        _ ≤ 2 ^ 31 := hpow
        _ = 2147483648 := by norm_num
    have key : IpCalc.calculateHostNumber [i0, i1, i2, i3] cidr =
        IpCalc.bitsValI ((IpCalc.bits32 [i0, i1, i2, i3]).drop cidr) 0 := by
      unfold IpCalc.calculateHostNumber
      rw [if_neg (by omega), IpCalc.hostLoop_eq_drop, Nat.sub_zero,
        IpCalc.foldl_stepHN_eq _ 0 hbits (by omega) (by omega),
        IpCalc.int32_of_range _ (by omega) hub']
    exact ⟨key, hnn⟩
  · intro h0
    unfold IpCalc.calculateHostNumber
    rw [if_neg (by omega), IpCalc.hostLoop_eq_drop, Nat.sub_zero, List.drop_zero]
    exact IpCalc.foldl_stepHN_eq _ 0 (IpCalc.bits32_le_one _) (by omega) (by omega)

/-- Witness for C7 (amended) at IP `192.168.1.10`, `cidr = 24`. -/
theorem hostNumber_amended_witness :
    IpCalc.calculateHostNumber [192, 168, 1, 10] 24 =
      IpCalc.bitsValI ((IpCalc.bits32 [192, 168, 1, 10]).drop 24) 0 :=
  ((hostNumber_amended 192 168 1 10
      (by decide) (by decide) (by decide) (by decide) 24).2.1
    (by decide) (by decide)).1
